import Mathlib

set_option maxRecDepth 100000

/-!
Shallow embedding of `src/main.rs` (a minimal proof-of-work ledger):
the `Transaction`, `Block` and `Blockchain` structures with their
operations `Transaction::new`, `Block::new`, `Block::calculate_hash`,
`Block::mine_block`, `Blockchain::new`, `Blockchain::get_latest_block`,
`Blockchain::mine_pending_transactions`, `Blockchain::add_transaction`,
`Blockchain::get_balance` and `Blockchain::is_chain_valid`.

Modelling conventions:
* SHA-256 is embedded as an executable function over `Nat` bytes,
  rendering digests as the 64 lowercase hex characters the Rust code
  produces with `write!("{:02x}", byte)`.
* Wall-clock capture (`Utc::now().timestamp()`) becomes an explicit
  `now : Int` argument to every operation that captures a timestamp.
* The unbounded proof-of-work loop in `mine_block` takes a `fuel`
  argument; exhausting the fuel yields `MineResult.outOfFuel`, and the
  out-of-bounds string slice `&self.hash[..difficulty]` that Rust
  performs each iteration yields `MineResult.panicked` when
  `difficulty` exceeds the digest's length.
* `amount: f64` carries the rational value the binary64 datum denotes,
  and the `f64` accumulation in `get_balance` is modelled faithfully:
  every `+=`/`-=` step rounds its exact result to the nearest binary64
  value (round to nearest, ties to even) via `roundF64`. The amount's
  serialized form inside the hashed JSON payload is a
  deterministic-per-content rendering, which is all the
  canonical-encoding clause of the spec requires of it.
-/

/-! ## SHA-256 over `Nat` bytes -/

/-- Truncated addition of 32-bit words. -/
def add32 (a b : Nat) : Nat := (a + b) % 4294967296

/-- Right rotation of a 32-bit word by `n` bits. -/
def rotr32 (n x : Nat) : Nat := ((x >>> n) ||| (x <<< (32 - n))) &&& 4294967295

/-- `Ch(e,f,g)` from FIPS 180-4 (bitwise choose). -/
def sha2Ch (e f g : Nat) : Nat := (e &&& f) ^^^ ((e ^^^ 4294967295) &&& g)

/-- `Maj(a,b,c)` from FIPS 180-4 (bitwise majority). -/
def sha2Maj (a b c : Nat) : Nat := (a &&& b) ^^^ (a &&& c) ^^^ (b &&& c)

/-- Big sigma-0 compression function. -/
def bigSigma0 (x : Nat) : Nat := rotr32 2 x ^^^ rotr32 13 x ^^^ rotr32 22 x

/-- Big sigma-1 compression function. -/
def bigSigma1 (x : Nat) : Nat := rotr32 6 x ^^^ rotr32 11 x ^^^ rotr32 25 x

/-- Small sigma-0 message-schedule function. -/
def smallSigma0 (x : Nat) : Nat := rotr32 7 x ^^^ rotr32 18 x ^^^ (x >>> 3)

/-- Small sigma-1 message-schedule function. -/
def smallSigma1 (x : Nat) : Nat := rotr32 17 x ^^^ rotr32 19 x ^^^ (x >>> 10)

/-- The 64 SHA-256 round constants. -/
def sha256K : List Nat := [
  1116352408, 1899447441, 3049323471, 3921009573, 961987163, 1508970993, 2453635748, 2870763221,
  3624381080, 310598401, 607225278, 1426881987, 1925078388, 2162078206, 2614888103, 3248222580,
  3835390401, 4022224774, 264347078, 604807628, 770255983, 1249150122, 1555081692, 1996064986,
  2554220882, 2821834349, 2952996808, 3210313671, 3336571891, 3584528711, 113926993, 338241895,
  666307205, 773529912, 1294757372, 1396182291, 1695183700, 1986661051, 2177026350, 2456956037,
  2730485921, 2820302411, 3259730800, 3345764771, 3516065817, 3600352804, 4094571909, 275423344,
  430227734, 506948616, 659060556, 883997877, 958139571, 1322822218, 1537002063, 1747873779,
  1955562222, 2024104815, 2227730452, 2361852424, 2428436474, 2756734187, 3204031479, 3329325298]

/-- The initial SHA-256 hash state. -/
def sha256H0 : List Nat :=
  [1779033703, 3144134277, 1013904242, 2773480762, 1359893119, 2600822924, 528734635, 1541459225]

/-- A 64-bit quantity as 8 big-endian bytes. -/
def be64 (n : Nat) : List Nat :=
  [(n >>> 56) &&& 255, (n >>> 48) &&& 255, (n >>> 40) &&& 255, (n >>> 32) &&& 255,
   (n >>> 24) &&& 255, (n >>> 16) &&& 255, (n >>> 8) &&& 255, n &&& 255]

/-- A 32-bit word as 4 big-endian bytes. -/
def be32 (n : Nat) : List Nat :=
  [(n >>> 24) &&& 255, (n >>> 16) &&& 255, (n >>> 8) &&& 255, n &&& 255]

/-- FIPS 180-4 padding: append `0x80`, zero bytes up to 56 mod 64, then the
bit length as 8 big-endian bytes. -/
def sha256Pad (msg : List Nat) : List Nat :=
  msg ++ 128 :: List.replicate ((119 - msg.length % 64) % 64) 0 ++ be64 (8 * msg.length)

/-- Split a byte list into 64-byte chunks (the first argument is fuel that
`sha256` instantiates with the list's length, which always suffices). -/
def chunks64 : Nat → List Nat → List (List Nat)
  | 0, _ => []
  | _, [] => []
  | fuel + 1, l => l.take 64 :: chunks64 fuel (l.drop 64)

/-- Parse bytes as big-endian 32-bit words. -/
def toWords32 : List Nat → List Nat
  | b0 :: b1 :: b2 :: b3 :: rest =>
    (((b0 <<< 24) ||| (b1 <<< 16) ||| (b2 <<< 8)) ||| b3) :: toWords32 rest
  | _ => []

/-- One extension step of the message schedule: append
`w[n-16] + σ0(w[n-15]) + w[n-7] + σ1(w[n-2])` to `w`. -/
def scheduleStep (w : List Nat) : List Nat :=
  let n := w.length
  w ++ [(w.getD (n - 16) 0 + smallSigma0 (w.getD (n - 15) 0) +
         w.getD (n - 7) 0 + smallSigma1 (w.getD (n - 2) 0)) % 4294967296]

/-- Iterate `scheduleStep`. -/
def extendSchedule : Nat → List Nat → List Nat
  | 0, w => w
  | k + 1, w => extendSchedule k (scheduleStep w)

/-- The eight working variables of the compression loop. -/
structure Sha256State where
  a : Nat
  b : Nat
  c : Nat
  d : Nat
  e : Nat
  f : Nat
  g : Nat
  h : Nat
deriving DecidableEq, Repr

/-- One compression round; `kw` is the already-summed `K[i] + w[i]`. -/
def sha256Round (s : Sha256State) (kw : Nat) : Sha256State :=
  let t1 := s.h + bigSigma1 s.e + sha2Ch s.e s.f s.g + kw
  let t2 := bigSigma0 s.a + sha2Maj s.a s.b s.c
  { a := (t1 + t2) % 4294967296, b := s.a, c := s.b, d := s.c,
    e := (s.d + t1) % 4294967296, f := s.e, g := s.f, h := s.g }

/-- Run the 64 compression rounds. -/
def sha256Rounds : List Nat → Sha256State → Sha256State
  | [], s => s
  | kw :: rest, s => sha256Rounds rest (sha256Round s kw)

/-- Compress one 64-byte chunk into the running hash state. -/
def sha256Compress (hs : List Nat) (chunk : List Nat) : List Nat :=
  let w := extendSchedule 48 (toWords32 chunk)
  let kw := List.zipWith (fun k wi => k + wi) sha256K w
  let s := sha256Rounds kw
    { a := hs.getD 0 0, b := hs.getD 1 0, c := hs.getD 2 0, d := hs.getD 3 0,
      e := hs.getD 4 0, f := hs.getD 5 0, g := hs.getD 6 0, h := hs.getD 7 0 }
  [add32 (hs.getD 0 0) s.a, add32 (hs.getD 1 0) s.b, add32 (hs.getD 2 0) s.c,
   add32 (hs.getD 3 0) s.d, add32 (hs.getD 4 0) s.e, add32 (hs.getD 5 0) s.f,
   add32 (hs.getD 6 0) s.g, add32 (hs.getD 7 0) s.h]

/-- SHA-256 of a byte list, as the 32 bytes of the digest. -/
def sha256 (msg : List Nat) : List Nat :=
  let padded := sha256Pad msg
  ((chunks64 padded.length padded).foldl sha256Compress sha256H0).foldr
    (fun w acc => be32 w ++ acc) []

/-! ## Text rendering: hex digests, decimal numbers, JSON, UTF-8 -/

/-- Lowercase hex digit for a value below 16. -/
def hexDigitChar (n : Nat) : Char := Char.ofNat (if n < 10 then 48 + n else 87 + n)

/-- Render one byte as two lowercase hex characters (Rust's `{:02x}`). -/
def byteToHex (b : Nat) : List Char := [hexDigitChar (b / 16), hexDigitChar (b % 16)]

/-- Render a byte list as lowercase hex characters. -/
def bytesToHex (bs : List Nat) : List Char := (bs.map byteToHex).flatten

/-- Decimal rendering of an `Int`, as Rust's `Display` for `i64`. -/
def intChars : Int → List Char
  | Int.ofNat n => Nat.toDigits 10 n
  | Int.negSucc n => '-' :: Nat.toDigits 10 (n + 1)

/-- Deterministic-per-content rendering of a rational amount inside the
hashed JSON payload (stands in for serde_json's `f64` rendering; the spec
allows any encoding that is deterministic per content). -/
def ratChars (q : Rat) : List Char := intChars q.num ++ '/' :: Nat.toDigits 10 q.den

/-- JSON string-body escaping of one character. -/
def jsonEscapeChar (c : Char) : List Char :=
  if c = '"' ∨ c = '\\' then ['\\', c] else [c]

/-- A JSON string literal. -/
def jsonString (s : String) : List Char :=
  '"' :: (s.data.map jsonEscapeChar).flatten ++ ['"']

/-- UTF-8 encoding of one character (what `str::as_bytes` exposes). -/
def utf8EncodeChar (c : Char) : List Nat :=
  let n := c.toNat
  if n < 128 then [n]
  else if n < 2048 then [192 ||| (n >>> 6), 128 ||| (n &&& 63)]
  else if n < 65536 then
    [224 ||| (n >>> 12), 128 ||| ((n >>> 6) &&& 63), 128 ||| (n &&& 63)]
  else
    [240 ||| (n >>> 18), 128 ||| ((n >>> 12) &&& 63),
     128 ||| ((n >>> 6) &&& 63), 128 ||| (n &&& 63)]

/-- UTF-8 encoding of a character list. -/
def utf8Encode (s : List Char) : List Nat := (s.map utf8EncodeChar).flatten

/-! ## The data model: `Transaction`, `Block`, `Blockchain` -/

/-- `struct Transaction` of `main.rs`. -/
structure Transaction where
  sender : String
  recipient : String
  amount : Rat
  timestamp : Int
deriving DecidableEq, Repr

/-- `Transaction::new`; the wall clock is the explicit `now`. -/
def Transaction.new (sender recipient : String) (amount : Rat) (now : Int) : Transaction :=
  { sender := sender, recipient := recipient, amount := amount, timestamp := now }

/-- serde_json's serialization of one transaction. -/
def jsonTransaction (t : Transaction) : List Char :=
  '\x7b' :: "\"sender\":".data ++ jsonString t.sender ++
  ",\"recipient\":".data ++ jsonString t.recipient ++
  ",\"amount\":".data ++ ratChars t.amount ++
  ",\"timestamp\":".data ++ intChars t.timestamp ++ ['\x7d']

/-- serde_json's serialization of `Vec<Transaction>`. -/
def jsonTransactions (ts : List Transaction) : List Char :=
  '[' :: (List.intersperse [','] (ts.map jsonTransaction)).flatten ++ [']']

/-- `struct Block` of `main.rs`; digests are their hex characters. -/
structure Block where
  index : Nat
  timestamp : Int
  transactions : List Transaction
  previous_hash : List Char
  hash : List Char
  nonce : Nat
deriving DecidableEq, Repr

/-- `Block::calculate_hash`: SHA-256 of the concatenation of the decimal
index, decimal timestamp, JSON-serialized transactions, previous digest
and decimal nonce, rendered as lowercase hex. -/
def Block.calculate_hash (b : Block) : List Char :=
  bytesToHex (sha256 (utf8Encode
    (Nat.toDigits 10 b.index ++ intChars b.timestamp ++
     jsonTransactions b.transactions ++ b.previous_hash ++ Nat.toDigits 10 b.nonce)))

/-- `Block::new`: nonce 0, hash computed from the fresh fields. -/
def Block.new (index : Nat) (transactions : List Transaction)
    (previous_hash : List Char) (now : Int) : Block :=
  let b : Block := { index := index, timestamp := now, transactions := transactions,
                     previous_hash := previous_hash, hash := [], nonce := 0 }
  { b with hash := b.calculate_hash }

/-- Outcome of running fuelled code that can panic or fail to finish. -/
inductive MineResult (α : Type) where
  | ok (val : α) : MineResult α
  | panicked : MineResult α
  | outOfFuel : MineResult α
deriving DecidableEq, Repr

/-- `Block::mine_block`: while the first `difficulty` digest characters
differ from `"0".repeat(difficulty)`, bump the nonce and recompute the
digest. The slice `&self.hash[..difficulty]` panics when `difficulty`
exceeds the digest's length; the extra fuel argument models the
unbounded loop. -/
def Block.mine_block (difficulty : Nat) : Nat → Block → MineResult Block
  | 0, _ => .outOfFuel
  | fuel + 1, b =>
    if difficulty ≤ b.hash.length then
      if b.hash.take difficulty = List.replicate difficulty '0' then .ok b
      else
        let b1 : Block := { b with nonce := b.nonce + 1 }
        Block.mine_block difficulty fuel { b1 with hash := b1.calculate_hash }
    else .panicked

/-- `struct Blockchain` of `main.rs`. -/
structure Blockchain where
  chain : List Block
  pending_transactions : List Transaction
  difficulty : Nat
  mining_reward : Rat
deriving DecidableEq, Repr

/-- `Blockchain::new`: a genesis block with index 0, no transactions and
previous digest `"0".repeat(64)`. -/
def Blockchain.new (difficulty : Nat) (mining_reward : Rat) (now : Int) : Blockchain :=
  { chain := [Block.new 0 [] (List.replicate 64 '0') now],
    pending_transactions := [], difficulty := difficulty, mining_reward := mining_reward }

/-- `Blockchain::get_latest_block` (`last()` before the `unwrap`). -/
def Blockchain.get_latest_block (bc : Blockchain) : Option Block := bc.chain.getLast?

/-- `Blockchain::mine_pending_transactions`: append the reward
transaction to the pending pool, build a block over the pool referencing
the tail digest, mine it, append it and clear the pool. The `unwrap` on
an empty chain panics. -/
def Blockchain.mine_pending_transactions (bc : Blockchain) (miner_address : String)
    (now : Int) (fuel : Nat) : MineResult Blockchain :=
  let pending := bc.pending_transactions ++
    [Transaction.new "System" miner_address bc.mining_reward now]
  match bc.get_latest_block with
  | none => .panicked
  | some latest =>
    match Block.mine_block bc.difficulty fuel (Block.new bc.chain.length pending latest.hash now) with
    | .ok mined => .ok { bc with chain := bc.chain ++ [mined], pending_transactions := [] }
    | .panicked => .panicked
    | .outOfFuel => .outOfFuel

/-- `Blockchain::add_transaction`. -/
def Blockchain.add_transaction (bc : Blockchain) (sender recipient : String)
    (amount : Rat) (now : Int) : Blockchain :=
  { bc with pending_transactions :=
      bc.pending_transactions ++ [Transaction.new sender recipient amount now] }

/-- Floor of the base-2 logarithm of a positive rational, by fuelled
normalisation into `[1, 2)` (the fuel far exceeds the binary64 exponent
range touched by any value handled here). -/
def floorLog2 : Nat → Rat → Int → Int
  | 0, _, e => e
  | fuel + 1, q, e =>
    if q < 1 then floorLog2 fuel (q * 2) (e - 1)
    else if 2 ≤ q then floorLog2 fuel (q / 2) (e + 1)
    else e

/-- Round a rational to the nearest IEEE-754 binary64 value (round to
nearest, ties to even), returned as the rational that value denotes.
This models the result of Rust's `f64` additions and subtractions in
`get_balance` for finite in-range results (every value evaluated in this
development stays far inside the finite range; infinities and NaN do not
arise). -/
def roundF64 (q : Rat) : Rat :=
  if q = 0 then 0
  else
    let a := if q < 0 then -q else q
    let e := floorLog2 4200 a 0
    let scale := if e - 52 < -1074 then (-1074 : Int) else e - 52
    let m := a / (2 : Rat) ^ scale
    let fl := ⌊m⌋
    let n : Int :=
      if m - (fl : Rat) < 1 / 2 then fl
      else if 1 / 2 < m - (fl : Rat) then fl + 1
      else if fl % 2 = 0 then fl else fl + 1
    (if q < 0 then (-1 : Rat) else 1) * (n : Rat) * (2 : Rat) ^ scale

/-- `Blockchain::get_balance`: fold over every block's every transaction,
subtracting amounts sent by `address` and adding amounts received. The
source accumulates with `f64` `-=` and `+=`, so each step rounds its
exact result to the nearest binary64 value. -/
def Blockchain.get_balance (bc : Blockchain) (address : String) : Rat :=
  bc.chain.foldl (fun balance block =>
    block.transactions.foldl (fun balance t =>
      let balance :=
        if t.sender = address then roundF64 (balance - t.amount) else balance
      if t.recipient = address then roundF64 (balance + t.amount) else balance) balance) 0

/-- The loop body of `Blockchain::is_chain_valid` from index 1 on:
recompute each block's digest and check the link to its predecessor. -/
def Blockchain.is_chain_valid_from : Block → List Block → Bool
  | _, [] => true
  | prev, cur :: rest =>
    if cur.hash ≠ cur.calculate_hash then false
    else if cur.previous_hash ≠ prev.hash then false
    else Blockchain.is_chain_valid_from cur rest

/-- `Blockchain::is_chain_valid` (`for i in 1..chain.len()`). -/
def Blockchain.is_chain_valid (bc : Blockchain) : Bool :=
  match bc.chain with
  | [] => true
  | b :: rest => Blockchain.is_chain_valid_from b rest

/-! ## Derived notions the specification's properties speak about -/

/-- All records stored in the chain, in chain order. -/
def Blockchain.chainTransactions (bc : Blockchain) : List Transaction :=
  (bc.chain.map Block.transactions).flatten

/-- Every address appearing in the chain (all senders and recipients). -/
def Blockchain.chainAddresses (bc : Blockchain) : List String :=
  (bc.chainTransactions.map (fun t => [t.sender, t.recipient])).flatten

/-- The sum, over all distinct addresses appearing in the chain, of
`get_balance`. -/
def Blockchain.sumBalances (bc : Blockchain) : Rat :=
  (bc.chainAddresses.dedup.map bc.get_balance).sum

/-- Ledger states reachable from `Blockchain::new` by any sequence of
`add_transaction` and (successfully returning) `mine_pending_transactions`
calls. -/
inductive Reachable : Blockchain → Prop where
  | new (difficulty : Nat) (mining_reward : Rat) (now : Int) :
      Reachable (Blockchain.new difficulty mining_reward now)
  | add (bc : Blockchain) (sender recipient : String) (amount : Rat) (now : Int) :
      Reachable bc → Reachable (bc.add_transaction sender recipient amount now)
  | mine (bc : Blockchain) (miner_address : String) (now : Int) (fuel : Nat)
      (bc' : Blockchain) : Reachable bc →
      bc.mine_pending_transactions miner_address now fuel = .ok bc' → Reachable bc'

/-- Extract a successful result, with a fallback (used only to name
concrete post-states in closed statements). -/
def MineResult.getOkD {α : Type} : MineResult α → α → α
  | .ok a, _ => a
  | _, d => d

/-- The concrete ledger obtained by sealing once, at difficulty 0 and
reward 100, on a freshly created ledger. -/
def demoSealed : Blockchain :=
  ((Blockchain.new 0 100 0).mine_pending_transactions "miner1" 0 1).getOkD
    (Blockchain.new 0 100 0)

/-- The linkage relation between adjacent blocks. -/
def linkPair (prev cur : Block) : Prop := cur.previous_hash = prev.hash

/-- A chain with no reward records holding two transfers, `a→b` of
`1e17` and `b→c` of `1.0` (both amounts exactly representable in
binary64): the input on which `f64` accumulation loses `b`'s `1.0`
debit. -/
def conservationChain : Blockchain :=
  { chain := [
      { index := 1, timestamp := 0,
        transactions := [Transaction.new "a" "b" 100000000000000000 0,
                         Transaction.new "b" "c" 1 0],
        previous_hash := [], hash := [], nonce := 0 }],
    pending_transactions := [], difficulty := 0, mining_reward := 100 }

/-- A chain whose single block credits `x` with `1.0`. -/
def selfTransferBase : Blockchain :=
  { chain := [
      { index := 1, timestamp := 0,
        transactions := [Transaction.new "a" "x" 1 0],
        previous_hash := [], hash := [], nonce := 0 }],
    pending_transactions := [], difficulty := 0, mining_reward := 100 }

/-- `selfTransferBase` with one extra record appended to the same block:
a self-transfer `x→x` of `1e17`. -/
def selfTransferAdded : Blockchain :=
  { chain := [
      { index := 1, timestamp := 0,
        transactions := [Transaction.new "a" "x" 1 0,
                         Transaction.new "x" "x" 100000000000000000 0],
        previous_hash := [], hash := [], nonce := 0 }],
    pending_transactions := [], difficulty := 0, mining_reward := 100 }

/-! ## Validation: `is_chain_valid` as a pairwise chain condition -/

/-- The per-pair condition `is_chain_valid` checks for each index `i ≥ 1`:
the stored digest is the freshly recomputed one, and the link to the
predecessor holds. -/
def validPair (prev cur : Block) : Prop :=
  cur.hash = cur.calculate_hash ∧ cur.previous_hash = prev.hash

theorem is_chain_valid_from_iff_chain (prev : Block) (l : List Block) :
    Blockchain.is_chain_valid_from prev l = true ↔ List.Chain' validPair (prev :: l) := by
  induction l generalizing prev with
  | nil => simp [Blockchain.is_chain_valid_from]
  | cons cur rest ih =>
    rw [List.chain'_cons]
    unfold Blockchain.is_chain_valid_from
    by_cases h1 : cur.hash = cur.calculate_hash
    · by_cases h2 : cur.previous_hash = prev.hash
      · simp [h1, h2, validPair, ih]
      · simp [h1, h2, validPair]
    · simp [h1, validPair]

/-- C2: `is_chain_valid` returns `true` iff every block at index `i ≥ 1`
has its stored digest equal to its freshly recomputed canonical digest and
its `previous_hash` equal to the stored digest of block `i - 1`; the
genesis block itself is never re-validated and no difficulty predicate is
consulted. -/
theorem is_chain_valid_iff (bc : Blockchain) :
    bc.is_chain_valid = true ↔
      ∀ i (hi : i + 1 < bc.chain.length),
        (bc.chain.get ⟨i + 1, hi⟩).hash = (bc.chain.get ⟨i + 1, hi⟩).calculate_hash ∧
        (bc.chain.get ⟨i + 1, hi⟩).previous_hash =
          (bc.chain.get ⟨i, Nat.lt_of_succ_lt hi⟩).hash := by
  match hc : bc.chain with
  | [] =>
    unfold Blockchain.is_chain_valid
    rw [hc]
    simp
  | b :: rest =>
    unfold Blockchain.is_chain_valid
    rw [hc]
    rw [is_chain_valid_from_iff_chain, List.chain'_iff_get]
    constructor
    · intro h i hi
      have := h i (by simpa using hi)
      exact ⟨this.1, this.2⟩
    · intro h i hi
      have := h i (by simpa using hi)
      exact ⟨this.1, this.2⟩

/-! ## Mining lemmas -/

/-- `calculate_hash` reads every field except the stored `hash`. -/
theorem calculate_hash_set_hash (b : Block) (x : List Char) :
    Block.calculate_hash { b with hash := x } = b.calculate_hash := rfl

/-- What a successful `mine_block` run guarantees: all fields other than
`nonce` and `hash` are preserved, the resulting digest has the required
all-zero prefix, and the digest-consistency invariant is maintained. -/
theorem mine_block_ok_spec (difficulty : Nat) :
    ∀ (fuel : Nat) (b b' : Block), Block.mine_block difficulty fuel b = .ok b' →
      b'.index = b.index ∧ b'.timestamp = b.timestamp ∧
      b'.transactions = b.transactions ∧ b'.previous_hash = b.previous_hash ∧
      b'.hash.take difficulty = List.replicate difficulty '0' ∧
      (b.hash = b.calculate_hash → b'.hash = b'.calculate_hash) := by
  intro fuel
  induction fuel with
  | zero => intro b b' h; exact absurd h (by simp [Block.mine_block])
  | succ fuel ih =>
    intro b b' h
    unfold Block.mine_block at h
    by_cases hlen : difficulty ≤ b.hash.length
    · rw [if_pos hlen] at h
      by_cases hpre : b.hash.take difficulty = List.replicate difficulty '0'
      · rw [if_pos hpre] at h
        injection h with h
        subst h
        exact ⟨rfl, rfl, rfl, rfl, hpre, fun hi => hi⟩
      · rw [if_neg hpre] at h
        have spec := ih _ _ h
        refine ⟨spec.1, spec.2.1, spec.2.2.1, spec.2.2.2.1, spec.2.2.2.2.1, fun _ => ?_⟩
        exact spec.2.2.2.2.2 rfl
    · rw [if_neg hlen] at h
      exact absurd h (by simp)

/-- What a successful `mine_pending_transactions` run guarantees. -/
theorem mine_pending_ok_spec (bc : Blockchain) (m : String) (now : Int) (fuel : Nat)
    (bc' : Blockchain) (h : bc.mine_pending_transactions m now fuel = .ok bc') :
    ∃ latest mined,
      bc.chain.getLast? = some latest ∧
      bc'.chain = bc.chain ++ [mined] ∧
      bc'.pending_transactions = [] ∧
      bc'.difficulty = bc.difficulty ∧
      bc'.mining_reward = bc.mining_reward ∧
      mined.index = bc.chain.length ∧
      mined.timestamp = now ∧
      mined.transactions =
        bc.pending_transactions ++ [Transaction.new "System" m bc.mining_reward now] ∧
      mined.previous_hash = latest.hash ∧
      mined.hash.take bc.difficulty = List.replicate bc.difficulty '0' ∧
      mined.hash = mined.calculate_hash := by
  unfold Blockchain.mine_pending_transactions at h
  cases hl : bc.get_latest_block with
  | none => rw [hl] at h; exact absurd h (by simp)
  | some latest =>
    rw [hl] at h
    simp only [] at h
    cases hm : Block.mine_block bc.difficulty fuel
        (Block.new bc.chain.length
          (bc.pending_transactions ++ [Transaction.new "System" m bc.mining_reward now])
          latest.hash now) with
    | ok mined =>
      rw [hm] at h
      injection h with h
      subst h
      have spec := mine_block_ok_spec bc.difficulty fuel _ mined hm
      refine ⟨latest, mined, hl, rfl, rfl, rfl, rfl, ?_, ?_, ?_, ?_, spec.2.2.2.2.1, ?_⟩
      · exact spec.1
      · exact spec.2.1
      · exact spec.2.2.1
      · exact spec.2.2.2.1
      · exact spec.2.2.2.2.2 rfl
    | panicked => rw [hm] at h; exact absurd h (by simp)
    | outOfFuel => rw [hm] at h; exact absurd h (by simp)

/-! ## Claim theorems: creation, mining, growth, linkage -/

/-- C6: a freshly created ledger has a chain of length exactly 1, whose
sole block has index 0 and previous digest `"0"` repeated to the 64-hex
digest length, and an empty pending buffer. -/
theorem blockchain_new_genesis (difficulty : Nat) (mining_reward : Rat) (now : Int) :
    (Blockchain.new difficulty mining_reward now).chain.length = 1 ∧
    (Blockchain.new difficulty mining_reward now).chain.map Block.index = [0] ∧
    (Blockchain.new difficulty mining_reward now).chain.map Block.previous_hash =
      [List.replicate 64 '0'] ∧
    (Blockchain.new difficulty mining_reward now).pending_transactions = [] :=
  ⟨rfl, rfl, rfl, rfl⟩

/-- C9: mining a freshly constructed block at difficulty 0 returns it
unchanged at once: the nonce stays 0 and the digest stays the one computed
at construction. -/
theorem mine_block_difficulty_zero (index : Nat) (transactions : List Transaction)
    (previous_hash : List Char) (now : Int) (fuel : Nat) (h : 1 ≤ fuel) :
    Block.mine_block 0 fuel (Block.new index transactions previous_hash now) =
      .ok (Block.new index transactions previous_hash now) ∧
    (Block.new index transactions previous_hash now).nonce = 0 ∧
    (Block.new index transactions previous_hash now).hash =
      (Block.new index transactions previous_hash now).calculate_hash := by
  match fuel, h with
  | fuel + 1, _ =>
    refine ⟨?_, rfl, rfl⟩
    unfold Block.mine_block
    simp

theorem mine_block_difficulty_zero_witness :
    Block.mine_block 0 1 (Block.new 0 [] (List.replicate 64 '0') 0) =
      .ok (Block.new 0 [] (List.replicate 64 '0') 0) ∧
    (Block.new 0 [] (List.replicate 64 '0') 0).nonce = 0 ∧
    (Block.new 0 [] (List.replicate 64 '0') 0).hash =
      (Block.new 0 [] (List.replicate 64 '0') 0).calculate_hash :=
  mine_block_difficulty_zero 0 [] (List.replicate 64 '0') 0 1 (by decide)

/-- C1: whenever `mine_pending_transactions` returns, the newly appended
block's stored digest starts with `difficulty` zero hex characters and
equals the canonical digest recomputed from the block's final fields. -/
theorem seal_pending_prefix_and_digest (bc : Blockchain) (miner : String) (now : Int)
    (fuel : Nat) (bc' : Blockchain)
    (h : bc.mine_pending_transactions miner now fuel = .ok bc') :
    ∃ mined, bc'.chain = bc.chain ++ [mined] ∧
      mined.hash.take bc.difficulty = List.replicate bc.difficulty '0' ∧
      mined.hash = mined.calculate_hash := by
  obtain ⟨latest, mined, _, hchain, _, _, _, _, _, _, _, hpre, hinv⟩ :=
    mine_pending_ok_spec bc miner now fuel bc' h
  exact ⟨mined, hchain, hpre, hinv⟩

theorem seal_pending_prefix_and_digest_witness :
    ∃ mined, demoSealed.chain = (Blockchain.new 0 100 0).chain ++ [mined] ∧
      mined.hash.take (Blockchain.new 0 100 0).difficulty =
        List.replicate (Blockchain.new 0 100 0).difficulty '0' ∧
      mined.hash = mined.calculate_hash :=
  seal_pending_prefix_and_digest (Blockchain.new 0 100 0) "miner1" 0 1 demoSealed rfl

/-- C5: every successfully returning `mine_pending_transactions` call
grows the chain by exactly one block, keeps every previously existing
block unchanged, and clears the pending buffer. -/
theorem seal_pending_growth (bc : Blockchain) (miner : String) (now : Int) (fuel : Nat)
    (bc' : Blockchain) (h : bc.mine_pending_transactions miner now fuel = .ok bc') :
    bc'.chain.length = bc.chain.length + 1 ∧
    bc'.chain.take bc.chain.length = bc.chain ∧
    bc'.pending_transactions = [] := by
  obtain ⟨latest, mined, _, hchain, hpend, _, _, _, _, _, _, _, _⟩ :=
    mine_pending_ok_spec bc miner now fuel bc' h
  refine ⟨?_, ?_, hpend⟩
  · rw [hchain]; simp
  · rw [hchain]; simp

theorem seal_pending_growth_witness :
    demoSealed.chain.length = (Blockchain.new 0 100 0).chain.length + 1 ∧
    demoSealed.chain.take (Blockchain.new 0 100 0).chain.length =
      (Blockchain.new 0 100 0).chain ∧
    demoSealed.pending_transactions = [] :=
  seal_pending_growth (Blockchain.new 0 100 0) "miner1" 0 1 demoSealed rfl

/-- C10: the newly appended block's records are exactly the pending
records in submission order followed by one reward record from the
`"System"` sentinel to the miner, of amount `mining_reward`. -/
theorem seal_pending_block_records (bc : Blockchain) (miner : String) (now : Int)
    (fuel : Nat) (bc' : Blockchain)
    (h : bc.mine_pending_transactions miner now fuel = .ok bc') :
    ∃ mined, bc'.chain = bc.chain ++ [mined] ∧
      mined.transactions = bc.pending_transactions ++
        [{ sender := "System", recipient := miner, amount := bc.mining_reward,
           timestamp := now }] := by
  obtain ⟨latest, mined, _, hchain, _, _, _, _, _, htx, _, _, _⟩ :=
    mine_pending_ok_spec bc miner now fuel bc' h
  exact ⟨mined, hchain, htx⟩

theorem seal_pending_block_records_witness :
    ∃ mined, demoSealed.chain = (Blockchain.new 0 100 0).chain ++ [mined] ∧
      mined.transactions = (Blockchain.new 0 100 0).pending_transactions ++
        [{ sender := "System", recipient := "miner1",
           amount := (Blockchain.new 0 100 0).mining_reward, timestamp := 0 }] :=
  seal_pending_block_records (Blockchain.new 0 100 0) "miner1" 0 1 demoSealed rfl

/-- Invariant carried by every reachable ledger: the chain is non-empty
and adjacent blocks are linked. -/
theorem reachable_invariant (bc : Blockchain) (h : Reachable bc) :
    bc.chain ≠ [] ∧ List.Chain' linkPair bc.chain := by
  induction h with
  | new difficulty mining_reward now =>
    exact ⟨by simp [Blockchain.new], by simp [Blockchain.new]⟩
  | add bc sender recipient amount now _ ih => exact ih
  | mine bc miner now fuel bc' _ hok ih =>
    obtain ⟨latest, mined, hl, hchain, _, _, _, _, _, _, hprev, _, _⟩ :=
      mine_pending_ok_spec bc miner now fuel bc' hok
    constructor
    · rw [hchain]; simp
    · rw [hchain]
      refine List.chain'_append.mpr ⟨ih.2, List.chain'_singleton _, ?_⟩
      intro x hx y hy
      rw [hl] at hx
      simp at hx hy
      subst hx
      subst hy
      exact hprev

/-- C4: every ledger reachable by any sequence of `add_transaction` and
`mine_pending_transactions` calls has a non-empty chain in which every
block's `previous_hash` equals its predecessor's stored digest. -/
theorem reachable_chain_linked (bc : Blockchain) (h : Reachable bc) :
    bc.chain ≠ [] ∧
    ∀ i (hi : i + 1 < bc.chain.length),
      (bc.chain.get ⟨i + 1, hi⟩).previous_hash =
        (bc.chain.get ⟨i, Nat.lt_of_succ_lt hi⟩).hash := by
  obtain ⟨hne, hchain⟩ := reachable_invariant bc h
  refine ⟨hne, fun i hi => ?_⟩
  exact List.chain'_iff_get.mp hchain i (by omega)

theorem reachable_chain_linked_witness :
    (Blockchain.new 4 100 0).chain ≠ [] ∧
    ∀ i (hi : i + 1 < (Blockchain.new 4 100 0).chain.length),
      ((Blockchain.new 4 100 0).chain.get ⟨i + 1, hi⟩).previous_hash =
        ((Blockchain.new 4 100 0).chain.get ⟨i, Nat.lt_of_succ_lt hi⟩).hash :=
  reachable_chain_linked (Blockchain.new 4 100 0) (Reachable.new 4 100 0)

/-- C3 (amended): calling `mine_block` with a difficulty exceeding the
digest's hex length does not loop forever — the out-of-bounds slice
`&self.hash[..difficulty]` panics on the very first iteration. -/
theorem mine_block_difficulty_gt_hexlen_panics (b : Block) (difficulty fuel : Nat)
    (h1 : 1 ≤ fuel) (h2 : b.hash.length < difficulty) :
    Block.mine_block difficulty fuel b = .panicked := by
  match fuel, h1 with
  | fuel + 1, _ =>
    unfold Block.mine_block
    rw [if_neg (by omega)]

theorem mine_block_difficulty_gt_hexlen_panics_witness :
    Block.mine_block 65 1 (Block.new 0 [] (List.replicate 64 '0') 0) = .panicked :=
  mine_block_difficulty_gt_hexlen_panics (Block.new 0 [] (List.replicate 64 '0') 0) 65 1
    (by decide) (by decide)

/-- C3's counterexample: at difficulty 65 the very first call on a
freshly built block crashes (`panicked`) rather than continuing the
search, and a crash is not the fuel-exhaustion outcome that models
non-termination. -/
theorem mine_block_difficulty_gt_hexlen_crashes_concrete :
    Block.mine_block 65 1 (Block.new 0 [] (List.replicate 64 '0') 0) =
      MineResult.panicked ∧
    MineResult.panicked ≠ (MineResult.outOfFuel : MineResult Block) := by
  refine ⟨by decide, by decide⟩

/-! ## Balance behaviour under binary64 rounding -/

theorem two_zpow_mono {m n : Int} (h : m ≤ n) : (2 : Rat) ^ m ≤ 2 ^ n := by
  apply zpow_le_zpow_right₀ ?_ h
  norm_num

/-- `floorLog2` computes the binade exponent: if `2 ^ k ≤ q < 2 ^ (k + 1)`
and the fuel covers `|k|`, the search returns `e + k`. -/
theorem floorLog2_eq (fuel : Nat) (q : Rat) (e k : Int)
    (hfuel : k.natAbs ≤ fuel) (hlo : (2 : Rat) ^ k ≤ q) (hhi : q < 2 ^ (k + 1)) :
    floorLog2 fuel q e = e + k := by
  induction fuel generalizing q e k with
  | zero =>
    have hk : k = 0 := by omega
    subst hk
    simp [floorLog2]
  | succ fuel ih =>
    unfold floorLog2
    by_cases h1 : q < 1
    · rw [if_pos h1]
      have hk : k < 0 := by
        by_contra hk
        push_neg at hk
        have h2k : (2 : Rat) ^ (0 : Int) ≤ 2 ^ k := two_zpow_mono hk
        rw [zpow_zero] at h2k
        linarith
      have h2 : (2 : Rat) ^ (k + 1) = 2 ^ k * 2 := zpow_add_one₀ two_ne_zero k
      have h3 : (2 : Rat) ^ (k + 1 + 1) = 2 ^ (k + 1) * 2 := zpow_add_one₀ two_ne_zero (k + 1)
      have := ih (q * 2) (e - 1) (k + 1) (by omega) (by rw [h2]; linarith)
        (by rw [h3]; linarith)
      rw [this]
      omega
    · rw [if_neg h1]
      push_neg at h1
      by_cases h2 : (2 : Rat) ≤ q
      · rw [if_pos h2]
        have hk : 1 ≤ k := by
          by_contra hk
          push_neg at hk
          have h2k : (2 : Rat) ^ (k + 1) ≤ 2 ^ (1 : Int) := two_zpow_mono (by omega)
          rw [zpow_one] at h2k
          linarith
        have h3 : (2 : Rat) ^ k = 2 ^ (k - 1) * 2 := by
          have := zpow_add_one₀ (two_ne_zero (α := Rat)) (k - 1)
          rw [sub_add_cancel] at this
          exact this
        have hexp : k - 1 + 1 = k := by omega
        have h5 : (2 : Rat) ^ (k + 1) = 2 ^ k * 2 := zpow_add_one₀ two_ne_zero k
        have hlo2 : (2 : Rat) ^ (k - 1) ≤ q / 2 := by
          rw [h3] at hlo
          linarith
        have hhi2 : q / 2 < 2 ^ (k - 1 + 1) := by
          rw [hexp]
          rw [h5] at hhi
          linarith
        have := ih (q / 2) (e + 1) (k - 1) (by omega) hlo2 hhi2
        rw [this]
        omega
      · rw [if_neg h2]
        push_neg at h2
        have hk : k = 0 := by
          by_contra hk
          rcases lt_or_gt_of_ne hk with hneg | hpos
          · have h2k : (2 : Rat) ^ (k + 1) ≤ 2 ^ (0 : Int) := two_zpow_mono (by omega)
            rw [zpow_zero] at h2k
            linarith
          · have h2k : (2 : Rat) ^ (1 : Int) ≤ 2 ^ k := two_zpow_mono (by omega)
            rw [zpow_one] at h2k
            linarith
        subst hk
        omega

theorem floorLog2_one : floorLog2 4200 (1 : Rat) 0 = 0 := by
  have := floorLog2_eq 4200 1 0 0 (by norm_num) (by norm_num) (by norm_num)
  simpa using this

theorem floorLog2_hundred : floorLog2 4200 (100 : Rat) 0 = 6 := by
  have := floorLog2_eq 4200 100 0 6 (by norm_num) (by norm_num) (by norm_num)
  simpa using this

theorem floorLog2_big : floorLog2 4200 (100000000000000000 : Rat) 0 = 56 := by
  have := floorLog2_eq 4200 100000000000000000 0 56 (by norm_num) (by norm_num)
    (by norm_num)
  simpa using this

theorem floorLog2_bigPred : floorLog2 4200 (99999999999999999 : Rat) 0 = 56 := by
  have := floorLog2_eq 4200 99999999999999999 0 56 (by norm_num) (by norm_num)
    (by norm_num)
  simpa using this

theorem roundF64_zero : roundF64 0 = 0 := by
  unfold roundF64
  norm_num

theorem roundF64_one : roundF64 1 = 1 := by
  unfold roundF64
  norm_num [floorLog2_one]

theorem roundF64_hundred : roundF64 100 = 100 := by
  unfold roundF64
  norm_num [floorLog2_hundred]

theorem roundF64_neg_hundred : roundF64 (-100) = -100 := by
  unfold roundF64
  norm_num [floorLog2_hundred]

theorem roundF64_big : roundF64 (100000000000000000 : Rat) = 100000000000000000 := by
  unfold roundF64
  norm_num [floorLog2_big]

theorem roundF64_neg_big :
    roundF64 (-100000000000000000 : Rat) = -100000000000000000 := by
  unfold roundF64
  norm_num [floorLog2_big]

/-- The load-bearing rounding step: `1e17 - 1` is not representable in
binary64 (the unit in the last place there is 16) and rounds back up to
`1e17`; by sign symmetry `1 - 1e17` rounds to `-1e17`. -/
theorem roundF64_bigPred :
    roundF64 (99999999999999999 : Rat) = 100000000000000000 := by
  unfold roundF64
  norm_num [floorLog2_bigPred]

theorem roundF64_neg_bigPred :
    roundF64 (-99999999999999999 : Rat) = -100000000000000000 := by
  unfold roundF64
  norm_num [floorLog2_bigPred]

/-- `get_balance` folds over the per-block record lists only. -/
theorem get_balance_tx (bc : Blockchain) (address : String) :
    bc.get_balance address = (bc.chain.map Block.transactions).foldl
      (fun balance ts => ts.foldl (fun balance t =>
        let balance :=
          if t.sender = address then roundF64 (balance - t.amount) else balance
        if t.recipient = address then roundF64 (balance + t.amount) else balance)
        balance) 0 := by
  unfold Blockchain.get_balance
  rw [List.foldl_map]

/-- C7: the program's `f64` balance fold does not conserve value. On
`conservationChain` — which contains no reward records — the balances
are `-1e17`, `1e17` and `1.0` (the subtraction `1e17 - 1.0` rounds back
to `1e17`), so the sum over all addresses appearing in the chain is
`1.0`, not `0`. Sealing, for its part, leaves the aggregate at `0`
rather than adding `mining_reward`: the minted reward's credit to the
miner is offset by the equal debit of the `"System"` sentinel, which
also appears in the chain. -/
theorem balance_conservation_fails_f64 :
    (∀ t ∈ conservationChain.chainTransactions, t.sender ≠ "System") ∧
    conservationChain.get_balance "a" = -100000000000000000 ∧
    conservationChain.get_balance "b" = 100000000000000000 ∧
    conservationChain.get_balance "c" = 1 ∧
    conservationChain.sumBalances = 1 ∧
    ((1 : Rat) ≠ 0) ∧
    (Blockchain.new 0 100 0).mine_pending_transactions "miner1" 0 1 = .ok demoSealed ∧
    demoSealed.sumBalances = 0 ∧
    ((0 : Rat) ≠ 0 + 100) := by
  have ha : conservationChain.get_balance "a" = -100000000000000000 := by
    norm_num +decide [Blockchain.get_balance, conservationChain, Transaction.new,
      roundF64_neg_big]
  have hb : conservationChain.get_balance "b" = 100000000000000000 := by
    norm_num +decide [Blockchain.get_balance, conservationChain, Transaction.new,
      roundF64_big, roundF64_bigPred]
  have hc : conservationChain.get_balance "c" = 1 := by
    norm_num +decide [Blockchain.get_balance, conservationChain, Transaction.new,
      roundF64_one]
  have haddr : conservationChain.chainAddresses.dedup = ["a", "b", "c"] := rfl
  have hsum : conservationChain.sumBalances = 1 := by
    rw [Blockchain.sumBalances, haddr]
    simp only [List.map_cons, List.map_nil, List.sum_cons, List.sum_nil]
    rw [ha, hb, hc]
    norm_num
  have hdemoAddr : demoSealed.chainAddresses.dedup = ["System", "miner1"] := rfl
  have hdemoTx : demoSealed.chain.map Block.transactions =
      [[], [Transaction.new "System" "miner1" 100 0]] := rfl
  have hdsys : demoSealed.get_balance "System" = -100 := by
    rw [get_balance_tx, hdemoTx]
    norm_num +decide [Transaction.new, roundF64_neg_hundred]
  have hdminer : demoSealed.get_balance "miner1" = 100 := by
    rw [get_balance_tx, hdemoTx]
    norm_num +decide [Transaction.new, roundF64_hundred]
  have hdemoSum : demoSealed.sumBalances = 0 := by
    rw [Blockchain.sumBalances, hdemoAddr]
    simp only [List.map_cons, List.map_nil, List.sum_cons, List.sum_nil]
    rw [hdsys, hdminer]
    norm_num
  refine ⟨by decide, ha, hb, hc, hsum, by norm_num, rfl, hdemoSum, by norm_num⟩

/-- C8: a self-transfer is not neutral for the program's `f64` balance
fold. Appending the self-transfer `x→x` of `1e17` to the block changes
`x`'s computed balance from `1.0` to `0.0`: the running balance passes
through `roundF64 (1 - 1e17) = -1e17`, absorbing the `1.0`, and adding
`1e17` back yields `0`. -/
theorem self_transfer_changes_balance_f64 :
    (Transaction.new "x" "x" 100000000000000000 0).sender = "x" ∧
    (Transaction.new "x" "x" 100000000000000000 0).recipient = "x" ∧
    selfTransferBase.get_balance "x" = 1 ∧
    selfTransferAdded.get_balance "x" = 0 ∧
    ((0 : Rat) ≠ 1) := by
  refine ⟨rfl, rfl, ?_, ?_, by norm_num⟩
  · norm_num +decide [Blockchain.get_balance, selfTransferBase, Transaction.new,
      roundF64_one]
  · norm_num +decide [Blockchain.get_balance, selfTransferAdded, Transaction.new,
      roundF64_one, roundF64_neg_bigPred, roundF64_zero]
